import Mathlib

/-!
Verification of the output-parsing and result-reconciliation core of the
mcp-w2vgrep server (src/utils.ts and the sort step of src/index.ts).

Strings are modelled as `List Char`; JavaScript string methods used by the
source (`split`, `trim`, `match` against the fixed regular expressions,
`replace`, `startsWith`, `endsWith`, `slice`, `parseInt`, `parseFloat`,
`Array.prototype.sort`) are given explicit executable models below, each
annotated with the source construct it embeds.  Floating-point numbers are
modelled as rationals; the decimal literals exercised by the theorems in
this file are exactly representable both as IEEE doubles and as rationals,
so no rounding behaviour is relevant to any statement proved here.
-/

/-- Strings are lists of characters. -/
abbrev Str := List Char

/-- Convert a Lean string literal to the `List Char` model. -/
def str (s : String) : Str := s.toList

/-- Whitespace class shared by JavaScript `String.prototype.trim` and the
regular-expression class `\s` on the characters that can occur in this
development (space, tab, newline, carriage return, vertical tab, form feed;
the exotic Unicode space characters also in the JS classes never appear in
any input considered here). -/
def isWSChar (c : Char) : Bool :=
  c = ' ' || c = '\t' || c = '\n' || c = '\r' || c = '\x0b' || c = '\x0c'

/-- Decimal digit test, the regex class `\d`. -/
def isDigitChar (c : Char) : Bool :=
  '0' ≤ c && c ≤ '9'

/-- Character class `[\d.]` of the similarity-header capture group. -/
def isDigitOrDot (c : Char) : Bool :=
  isDigitChar c || c = '.'

/-- Character class `[0-9;]` of the ANSI escape parameter bytes. -/
def isAnsiParam (c : Char) : Bool :=
  isDigitChar c || c = ';'

/-- Model of JavaScript `String.prototype.trim`. -/
def trimJS (s : Str) : Str :=
  ((s.dropWhile isWSChar).reverse.dropWhile isWSChar).reverse

/-- Model of JavaScript `split` with a single-character separator
(`"".split(sep)` is `[""]`, so the empty list maps to `[[]]`). -/
def listSplitOn (sep : Char) : Str → List Str
  | [] => [[]]
  | c :: rest =>
    if c = sep then
      [] :: listSplitOn sep rest
    else
      match listSplitOn sep rest with
      | [] => [[c]]
      | h :: t => (c :: h) :: t

/-- Model of JavaScript `split` with a multi-character separator
`s0 :: sr`: scan left to right, cutting at each leftmost non-overlapping
occurrence.  The `fuel` argument is an upper bound on the number of
characters still to scan, making the recursion structural; callers pass
the length of the string, which always suffices. -/
def splitOnSubF (s0 : Char) (sr : Str) : Nat → Str → List Str
  | _, [] => [[]]
  | 0, s => [s]
  | fuel + 1, c :: rest =>
    if c = s0 ∧ sr.isPrefixOf rest then
      [] :: splitOnSubF s0 sr fuel (rest.drop sr.length)
    else
      match splitOnSubF s0 sr fuel rest with
      | [] => [[c]]
      | h :: t => (c :: h) :: t

/-- Model of JavaScript `s.split(sep)` for the non-empty separator
`s0 :: sr`. -/
def splitOnSub (s0 : Char) (sr : Str) (s : Str) : List Str :=
  splitOnSubF s0 sr s.length s

/-- Whether the separator `sep` occurs as a contiguous subsequence
(used to state where a split cannot cut). -/
def hasSub (sep : Str) : Str → Bool
  | [] => false
  | c :: rest => sep.isPrefixOf (c :: rest) || hasSub sep rest

/-- Model of `stripAnsi` from src/utils.ts: global replacement of the
regular expression `\x1b\[[0-9;]*m` by the empty string.  The scanner keeps
any character that does not start a full escape sequence and continues one
position further, exactly like the regex engine.  `fuel` bounds the scan as
in `splitOnSubF`. -/
def stripAnsiF : Nat → Str → Str
  | _, [] => []
  | 0, s => s
  | fuel + 1, c :: rest =>
    if c = '\x1b' then
      match rest with
      | '[' :: r2 =>
        match r2.dropWhile isAnsiParam with
        | 'm' :: tail => stripAnsiF fuel tail
        | _ => c :: stripAnsiF fuel rest
      | _ => c :: stripAnsiF fuel rest
    else c :: stripAnsiF fuel rest

/-- Model of `stripAnsi(str)` from src/utils.ts. -/
def stripAnsi (s : Str) : Str := stripAnsiF s.length s

/-- Last element of a list, as an option (the value held by a variable that
is overwritten once per matching element of the list). -/
def lastHit : List α → Option α
  | [] => none
  | [a] => some a
  | _ :: b :: rest => lastHit (b :: rest)

/-- Numeric value of a decimal digit character. -/
def digitVal (c : Char) : Nat := c.toNat - 48

/-- Model of JavaScript `parseInt` on a non-empty all-digit string (the
only shape the `\d+` capture groups can produce). -/
def digitsVal (s : Str) : Nat :=
  s.foldl (fun a c => 10 * a + digitVal c) 0

/-- Decimal digit character for a value below ten. -/
def digitChar10 : Nat → Char
  | 0 => '0' | 1 => '1' | 2 => '2' | 3 => '3' | 4 => '4'
  | 5 => '5' | 6 => '6' | 7 => '7' | 8 => '8' | _ => '9'

/-- Digit expansion of a positive number; `fuel` bounds the recursion and
any `fuel ≥ n` yields the full expansion. -/
def natDigitsF : Nat → Nat → Str
  | 0, _ => []
  | _ + 1, 0 => []
  | fuel + 1, n + 1 => natDigitsF fuel ((n + 1) / 10) ++ [digitChar10 ((n + 1) % 10)]

/-- Model of JavaScript number-to-string conversion for the non-negative
integers produced by `parseInt` (template literal `${lineNum}`). -/
def natToStr (n : Nat) : Str :=
  if n = 0 then ['0'] else natDigitsF n n

/-- Model of JavaScript `parseFloat` on a string drawn from the character
class `[\d.]+`: longest numeric prefix `digits [. digits]`.  The JavaScript
result is `NaN` exactly when no such non-empty prefix exists (for example
on the input `"."`); that case is represented by `0` here, because no claim
verified in this file evaluates the parser on such a header. -/
def parseFloatQ (s : Str) : ℚ :=
  match s.dropWhile isDigitChar with
  | '.' :: r2 =>
    let intPart := s.takeWhile isDigitChar
    let fracPart := r2.takeWhile isDigitChar
    if intPart = [] ∧ fracPart = [] then 0
    else (digitsVal intPart : ℚ) + (digitsVal fracPart : ℚ) / ((10 : ℚ) ^ fracPart.length)
  | _ =>
    match s.takeWhile isDigitChar with
    | [] => 0
    | intPart => (digitsVal intPart : ℚ)

/-- Interface `MatchLocation` from src/utils.ts: one occurrence of matched
text in a specific file. -/
structure MatchLocation where
  file : Str
  line : Nat
  context : Str
deriving DecidableEq

/-- Interface `SearchMatch` from src/utils.ts.  The source field `match` is
a reserved word in Lean and is rendered `matchText`; `locations?` is the
optional field attached by the reconciler. -/
structure SearchMatch where
  similarity : ℚ
  line : Nat
  matchText : Str
  context : List Str
  locations : Option (List MatchLocation) := none
deriving DecidableEq

/-- The literal `Similarity:` searched for by the header regex. -/
def similarityLabel : Str := str "Similarity:"

/-- Model of `line.match(/Similarity:\s*([\d.]+)/)`, returning the capture
group.  The regex is unanchored: the engine tries every start position from
left to right; at a position where the literal label matches, `\s*` greedily
eats whitespace and the capture then needs at least one `[\d.]` character
(whitespace characters are not in `[\d.]`, so backtracking into `\s*` cannot
help, and a failed attempt resumes the scan one character further). -/
def findHeaderCapture : Str → Option Str
  | [] => none
  | c :: rest =>
    if similarityLabel.isPrefixOf (c :: rest) then
      let cap := (((c :: rest).drop similarityLabel.length).dropWhile isWSChar).takeWhile isDigitOrDot
      if cap = [] then findHeaderCapture rest else some cap
    else findHeaderCapture rest

/-- Model of `line.match(/^(\d+):\s*(.*)$/)`: a non-empty leading digit run,
a colon, then the content with its leading whitespace consumed by the greedy
`\s*` (shorter digit runs cannot match because the following character would
be a digit, not a colon). -/
def ctxLineMatch (l : Str) : Option (Nat × Str) :=
  match l.takeWhile isDigitChar, l.dropWhile isDigitChar with
  | [], _ => none
  | ds, ':' :: r2 => some (digitsVal ds, r2.dropWhile isWSChar)
  | _, _ => none

/-- The reconstructed context entry `` `${lineNum}: ${content}` `` pushed by
`parseW2vgrepOutput`. -/
def contextEntry (n : Nat) (c : Str) : Str :=
  natToStr n ++ ':' :: ' ' :: c

/-- Block list of `parseW2vgrepOutput`:
`stripAnsi(output).split("--\n").filter(Boolean)`. -/
def w2vBlocks (output : Str) : List Str :=
  (splitOnSub '-' ['-', '\n'] (stripAnsi output)).filter (fun b => !b.isEmpty)

/-- Line list of one block: `block.trim().split("\n")`. -/
def blockLines (block : Str) : List Str :=
  listSplitOn '\n' (trimJS block)

/-- The similarity-header capture of a block, taken from its first line
(`lines[0].match(/Similarity:\s*([\d.]+)/)`). -/
def headerCapture (block : Str) : Option Str :=
  match blockLines block with
  | [] => none
  | l0 :: _ => findHeaderCapture l0

/-- The accepted numbered lines of a block, with their 1-based loop index:
the loop `for (let i = 1; i < lines.length; i++)` keeps each line matching
`/^(\d+):\s*(.*)$/` as a pair of parsed number and content. -/
def w2vIdxPairs (lines : List Str) : List (Nat × Nat × Str) :=
  (lines.enum.drop 1).filterMap
    (fun p => (ctxLineMatch p.2).map (fun q => (p.1, q)))

/-- The `contextLines` array of a block: each accepted line reconstructed
as `` `${lineNum}: ${content}` `` in encounter order. -/
def w2vContext (lines : List Str) : List Str :=
  (w2vIdxPairs lines).map (fun p => contextEntry p.2.1 p.2.2)

/-- The provisional `matchLine`/`matchWord` assignment of the first loop:
set when the accepted line's index equals `Math.ceil(lines.length / 2)`
(the last such assignment wins; the variables start at `0` and `""`). -/
def w2vFirstPass (lines : List Str) : Nat × Str :=
  match lastHit ((w2vIdxPairs lines).filterMap
      (fun p => if p.1 = (lines.length + 1) / 2 then some p.2 else none)) with
  | some q => q
  | none => (0, [])

/-- The final `matchLine`/`matchWord` of a block: when `contextLines` is
non-empty, element `Math.floor(contextLines.length / 2)` is re-parsed with
the context-line regex and overrides the first-pass values. -/
def w2vChosen (lines : List Str) : Nat × Str :=
  let ctx := w2vContext lines
  if ctx.length ≠ 0 then
    match ctx.get? (ctx.length / 2) with
    | some midLine =>
      match ctxLineMatch midLine with
      | some q => q
      | none => w2vFirstPass lines
    | none => w2vFirstPass lines
  else w2vFirstPass lines

/-- Body of the block loop of `parseW2vgrepOutput`: `none` when the first
line has no similarity header (the block is skipped), otherwise the pushed
`SearchMatch`. -/
def parseW2vBlock (block : Str) : Option SearchMatch :=
  match blockLines block with
  | [] => none
  | l0 :: rest =>
    match findHeaderCapture l0 with
    | none => none
    | some cap =>
      some { similarity := parseFloatQ cap
           , line := (w2vChosen (l0 :: rest)).1
           , matchText := (w2vChosen (l0 :: rest)).2
           , context := w2vContext (l0 :: rest)
           , locations := none }

/-- Model of `parseW2vgrepOutput(output)` from src/utils.ts. -/
def parseW2vgrepOutput (output : Str) : List SearchMatch :=
  (w2vBlocks output).filterMap parseW2vBlock

/-- Model of `basePath.endsWith("/")`. -/
def endsWithSlash (s : Str) : Bool :=
  match s.reverse with
  | [] => false
  | c :: _ => c = '/'

/-- Model of `relativePath(filePath, basePath)` from src/utils.ts. -/
def relativePath (filePath basePath : Str) : Str :=
  if filePath = basePath then []
  else
    let base := if endsWithSlash basePath then basePath else basePath ++ ['/']
    if base.isPrefixOf filePath then filePath.drop base.length else filePath

/-- One global single-character replacement
`str.replace(/c/g, replacement)`. -/
def replaceChar (target : Char) (rep : Str) : Str → Str
  | [] => []
  | c :: rest => (if c = target then rep else [c]) ++ replaceChar target rep rest

/-- The backquote character (code point 96). -/
def backquote : Char := Char.ofNat 96

/-- Model of `escapeForShell(str)` from src/utils.ts: the four chained
global replacements, applied in source order with the backslash first. -/
def escapeForShell (s : Str) : Str :=
  replaceChar backquote ['\\', backquote]
    (replaceChar '$' ['\\', '$']
      (replaceChar '"' ['\\', '"']
        (replaceChar '\\' ['\\', '\\'] s)))

/-- Portion of the specification restated as a single pass, used to show
that the four replacements of `escapeForShell` compose without
double-escaping: each of the four special characters becomes backslash
followed by itself, every other character is unchanged. -/
def escapeSpecOne (c : Char) : Str :=
  if c = '\\' ∨ c = '"' ∨ c = '$' ∨ c = backquote then ['\\', c] else [c]

/-- Single-pass reading of the escaping rule of the specification. -/
def escapeSpec : Str → Str
  | [] => []
  | c :: rest => escapeSpecOne c ++ escapeSpec rest

/-- Model of `line.match(/^(.+?)SEP(\d+)SEP(.*)$/)` for a one-character
separator `SEP` (colon for match lines, dash for context lines).  The lazy
`(.+?)` means the leftmost viable split wins; at a candidate separator the
greedy `\d+` must reach another separator character immediately (shorter
digit runs would end on a digit), otherwise the scan resumes with the
candidate character absorbed into the file part.  `acc` holds the reversed
file part scanned so far; it must be non-empty for a split (`.+?` needs at
least one character). -/
def rgScanFrom (sep : Char) : Str → Str → Option (Str × Nat × Str)
  | _, [] => none
  | acc, c :: rest =>
    if c = sep ∧ acc ≠ [] then
      match rest.takeWhile isDigitChar, rest.dropWhile isDigitChar with
      | [], _ => rgScanFrom sep (c :: acc) rest
      | ds, d :: r3 =>
        if d = sep then some (acc.reverse, digitsVal ds, r3)
        else rgScanFrom sep (c :: acc) rest
      | _, [] => rgScanFrom sep (c :: acc) rest
    else rgScanFrom sep (c :: acc) rest

/-- Split of a ripgrep output line on the given separator character. -/
def rgSplitLine (sep : Char) (l : Str) : Option (Str × Nat × Str) :=
  rgScanFrom sep [] l

/-- The mutable per-block state of `parseRipgrepOutput`: `matchFile`,
`matchLine` and the `contextLines` accumulator. -/
structure RgState where
  file : Str
  line : Nat
  ctx : List (Nat × Str)
deriving DecidableEq

/-- One iteration of the line loop of `parseRipgrepOutput`: empty lines are
skipped; a colon match sets the file (relativized) and line and records a
context pair; otherwise a dash match records a context pair. -/
def rgStep (basePath : Str) (st : RgState) (l : Str) : RgState :=
  if l = [] then st
  else
    match rgSplitLine ':' l with
    | some (f, n, t) => ⟨relativePath f basePath, n, st.ctx ++ [(n, t)]⟩
    | none =>
      match rgSplitLine '-' l with
      | some (_, n, t) => ⟨st.file, st.line, st.ctx ++ [(n, t)]⟩
      | none => st

/-- The state after scanning all lines of a block
(`block.split("\n")`, initial state `"" / 0 / []`). -/
def rgBlockState (basePath block : Str) : RgState :=
  (listSplitOn '\n' block).foldl (rgStep basePath) ⟨[], 0, []⟩

/-- The recognized `{lineNumber, content}` pair contributed by one line,
mirroring the two regex attempts of the loop (colon tried first). -/
def rgRecognize (l : Str) : Option (Nat × Str) :=
  match rgSplitLine ':' l with
  | some (_, n, t) => some (n, t)
  | none => (rgSplitLine '-' l).map (fun x => (x.2.1, x.2.2))

/-- Stable ascending insertion by line number, the effect of
`contextLines.sort((a, b) => a.num - b.num)` (ECMAScript sorts are stable;
insertion keeps an earlier-submitted pair in front of later equals). -/
def insertPairAsc (p : Nat × Str) : List (Nat × Str) → List (Nat × Str)
  | [] => [p]
  | x :: xs => if p.1 ≤ x.1 then p :: x :: xs else x :: insertPairAsc p xs

/-- Stable ascending sort by line number. -/
def sortPairsAsc : List (Nat × Str) → List (Nat × Str)
  | [] => []
  | x :: xs => insertPairAsc x (sortPairsAsc xs)

/-- Model of `contextLines.map(c => c.text).join("\n")`. -/
def joinNL (l : List Str) : Str :=
  List.intercalate ['\n'] l

/-- Body of the block loop of `parseRipgrepOutput`: blocks that are empty
after trimming are skipped; a `MatchLocation` is pushed only when the final
`matchFile` is non-empty and `matchLine` positive. -/
def parseRgBlock (basePath block : Str) : Option MatchLocation :=
  if trimJS block = [] then none
  else
    let st := rgBlockState basePath block
    if st.file ≠ [] ∧ 0 < st.line then
      some ⟨st.file, st.line, joinNL ((sortPairsAsc st.ctx).map Prod.snd)⟩
    else none

/-- Block list of `parseRipgrepOutput`: `output.trim().split("\n--\n")`. -/
def rgBlocks (output : Str) : List Str :=
  splitOnSub '\n' ['-', '-', '\n'] (trimJS output)

/-- Model of `parseRipgrepOutput(output, basePath)` from src/utils.ts. -/
def parseRipgrepOutput (output basePath : Str) : List MatchLocation :=
  (rgBlocks output).filterMap (parseRgBlock basePath)

/-- Stable descending insertion by similarity, the effect of
`allMatches.sort((a, b) => b.similarity - a.similarity)` in src/index.ts
(ECMAScript sorts are stable; an earlier-submitted match stays in front of
later matches with equal similarity). -/
def insertBySim (m : SearchMatch) : List SearchMatch → List SearchMatch
  | [] => [m]
  | x :: xs => if x.similarity ≤ m.similarity then m :: x :: xs else x :: insertBySim m xs

/-- Stable descending sort by similarity: the reconciler's final sort. -/
def sortBySimilarity : List SearchMatch → List SearchMatch
  | [] => []
  | x :: xs => insertBySim x (sortBySimilarity xs)

/-- A `SearchMatch` carrying only a similarity score, for concrete
reconciliation examples. -/
def simOnly (q : ℚ) : SearchMatch :=
  { similarity := q, line := 0, matchText := [], context := [], locations := none }

/-- The last colon-notation hit of a line list: the value left in
`matchFile`/`matchLine` by the loop, since each colon match overwrites the
previous one. -/
def lastColonHit (lines : List Str) : Option (Str × Nat × Str) :=
  lastHit (lines.filterMap (rgSplitLine ':'))

/-! Helper lemmas. -/

theorem replaceChar_append (t : Char) (rep a b : Str) :
    replaceChar t rep (a ++ b) = replaceChar t rep a ++ replaceChar t rep b := by
  induction a with
  | nil => rfl
  | cons c rest ih => simp [replaceChar, ih]

theorem isPrefixOf_append_self (l r : Str) : l.isPrefixOf (l ++ r) = true := by
  induction l with
  | nil => cases r <;> rfl
  | cons c rest ih => simp [List.isPrefixOf, ih]

theorem escapeForShell_append (a b : Str) :
    escapeForShell (a ++ b) = escapeForShell a ++ escapeForShell b := by
  simp [escapeForShell, replaceChar_append]

theorem endsWithSlash_concat (b : Str) : endsWithSlash (b ++ ['/']) = true := by
  unfold endsWithSlash
  rw [List.reverse_append]
  rfl

theorem relativePath_self (p : Str) : relativePath p p = [] := by
  simp [relativePath]

/-! Claim theorems. -/

/-- C7: `escapeForShell` applies exactly the four substitutions (backslash
doubled, then quote, dollar and backquote each prefixed with a backslash)
with the backslash replacement first, and the chain composes without
double-escaping: it coincides with the single-pass per-character escape on
every string, in particular on a string containing all four characters. -/
theorem escapeForShell_spec (s : Str) :
    escapeForShell s = escapeSpec s
    ∧ escapeForShell (str "a\\b\"c$d`e") = str "a\\\\b\\\"c\\$d\\`e" := by
  constructor
  · induction s with
    | nil => rfl
    | cons c rest ih =>
      have hsplit : escapeForShell (c :: rest) = escapeForShell [c] ++ escapeForShell rest :=
        escapeForShell_append [c] rest
      have hone : escapeForShell [c] = escapeSpecOne c := by
        by_cases h1 : c = '\\'
        · subst h1; decide
        by_cases h2 : c = '"'
        · subst h2; decide
        by_cases h3 : c = '$'
        · subst h3; decide
        by_cases h4 : c = backquote
        · subst h4; decide
        · simp [escapeForShell, replaceChar, escapeSpecOne, h1, h2, h3, h4]
      calc escapeForShell (c :: rest)
          = escapeForShell [c] ++ escapeForShell rest := hsplit
        _ = escapeSpecOne c ++ escapeSpec rest := by rw [hone, ih]
        _ = escapeSpec (c :: rest) := rfl
  · decide

/-- C3 counterexample: a path equal to the base except for the base's extra
trailing separator is returned unchanged, not relativized to the empty
string, so the result is not independent of a trailing `/` on the base. -/
theorem relativePath_trailing_sep_counterexample :
    relativePath (str "/a/b") (str "/a/b") = []
    ∧ relativePath (str "/a/b") (str "/a/b/") = str "/a/b"
    ∧ str "/a/b" ≠ ([] : Str) := by
  exact ⟨by decide, by decide, by decide⟩

/-- C3 (amended): `relativePath` returns the empty string when the path
literally equals the base, the suffix after the separator when the path
extends the base by a separator, and the path unchanged otherwise (no false
prefix match on `/a/bc/x` against `/a/b`).  The base's missing trailing
separator is supplied before the prefix comparison, so for any path other
than the bare base the result is unchanged by a trailing `/` on the base;
only the literal-equality case distinguishes the two spellings of the
base. -/
theorem relativePath_spec (p b r : Str) :
    relativePath p p = []
    ∧ (endsWithSlash b = false → relativePath (b ++ '/' :: r) b = r)
    ∧ (endsWithSlash b = false → p ≠ b → relativePath p (b ++ ['/']) = relativePath p b)
    ∧ relativePath (str "/a/bc/x") (str "/a/b") = str "/a/bc/x" := by
  refine ⟨relativePath_self p, ?_, ?_, by decide⟩
  · intro hb
    have hassoc : b ++ '/' :: r = (b ++ ['/']) ++ r := by simp
    rw [hassoc]
    have hne : (b ++ ['/']) ++ r ≠ b := by
      intro h
      have := congrArg List.length h
      simp at this
    simp [relativePath, hne, hb, isPrefixOf_append_self, List.drop_left]
  · intro hb hpb
    by_cases hp2 : p = b ++ ['/']
    · subst hp2
      have hne : b ++ ['/'] ≠ b := by
        intro h
        have := congrArg List.length h
        simp at this
      have hpre : (b ++ ['/']).isPrefixOf (b ++ ['/']) = true := by
        have h0 := isPrefixOf_append_self (b ++ ['/']) []
        rw [List.append_nil] at h0
        exact h0
      rw [relativePath_self]
      simp [relativePath, hne, hb, hpre, List.drop_length]
    · simp [relativePath, hp2, hpb, hb, endsWithSlash_concat]

/-- C3 witness: the amended statement evaluated at concrete paths. -/
theorem relativePath_spec_witness :
    relativePath (str "/a/b") (str "/a/b") = []
    ∧ relativePath (str "/a/b" ++ '/' :: str "c") (str "/a/b") = str "c"
    ∧ relativePath (str "/a/b/c") (str "/a/b" ++ ['/']) = relativePath (str "/a/b/c") (str "/a/b") := by
  exact ⟨(relativePath_spec (str "/a/b") (str "/a/b") []).1,
         (relativePath_spec (str "/a/b") (str "/a/b") (str "c")).2.1 (by decide),
         (relativePath_spec (str "/a/b/c") (str "/a/b") []).2.2.1 (by decide) (by decide)⟩

theorem insertBySim_perm (m : SearchMatch) : ∀ l, List.Perm (insertBySim m l) (m :: l) := by
  intro l
  induction l with
  | nil => simp [insertBySim]
  | cons x xs ih =>
    by_cases h : x.similarity ≤ m.similarity
    · simp [insertBySim, h]
    · simp only [insertBySim, if_neg h]
      exact (ih.cons x).trans (List.Perm.swap m x xs)

theorem sortBySimilarity_perm : ∀ l, List.Perm (sortBySimilarity l) l := by
  intro l
  induction l with
  | nil => rfl
  | cons x xs ih => exact (insertBySim_perm x _).trans (ih.cons x)

theorem insertBySim_pairwise (m : SearchMatch) :
    ∀ l, l.Pairwise (fun a b => b.similarity ≤ a.similarity) →
      (insertBySim m l).Pairwise (fun a b => b.similarity ≤ a.similarity) := by
  intro l
  induction l with
  | nil => intro _; simp [insertBySim]
  | cons x xs ih =>
    intro h
    rcases List.pairwise_cons.mp h with ⟨hx, hxs⟩
    by_cases hc : x.similarity ≤ m.similarity
    · simp only [insertBySim, if_pos hc]
      refine List.pairwise_cons.mpr ⟨?_, h⟩
      intro y hy
      rcases List.mem_cons.mp hy with rfl | hy2
      · exact hc
      · exact (hx y hy2).trans hc
    · simp only [insertBySim, if_neg hc]
      refine List.pairwise_cons.mpr ⟨?_, ih hxs⟩
      intro y hy
      have hy3 : y ∈ m :: xs := (insertBySim_perm m xs).mem_iff.mp hy
      rcases List.mem_cons.mp hy3 with rfl | hy4
      · exact le_of_lt (lt_of_not_le hc)
      · exact hx y hy4

theorem sortBySimilarity_pairwise :
    ∀ l, (sortBySimilarity l).Pairwise (fun a b => b.similarity ≤ a.similarity) := by
  intro l
  induction l with
  | nil => simp [sortBySimilarity]
  | cons x xs ih => exact insertBySim_pairwise x _ ih

theorem filter_insertBySim (q : ℚ) (m : SearchMatch) :
    ∀ l, (insertBySim m l).filter (fun x => decide (x.similarity = q))
      = if m.similarity = q
        then m :: l.filter (fun x => decide (x.similarity = q))
        else l.filter (fun x => decide (x.similarity = q)) := by
  intro l
  induction l with
  | nil =>
    by_cases hm : m.similarity = q <;> simp [insertBySim, List.filter, hm]
  | cons x xs ih =>
    by_cases hc : x.similarity ≤ m.similarity
    · simp only [insertBySim, if_pos hc]
      by_cases hm : m.similarity = q <;> simp [List.filter_cons, hm]
    · simp only [insertBySim, if_neg hc]
      by_cases hm : m.similarity = q
      · have hx : ¬ x.similarity = q := by
          intro hxq
          exact hc (by rw [hxq, hm])
        simp [List.filter_cons, hm, hx, ih]
      · simp [List.filter_cons, hm, ih]

theorem sortBySimilarity_filter (q : ℚ) :
    ∀ l, (sortBySimilarity l).filter (fun x => decide (x.similarity = q))
      = l.filter (fun x => decide (x.similarity = q)) := by
  intro l
  induction l with
  | nil => rfl
  | cons x xs ih =>
    show (insertBySim x (sortBySimilarity xs)).filter _ = _
    rw [filter_insertBySim q x, ih, List.filter_cons]
    by_cases hx : x.similarity = q <;> simp [hx]

/-- C6: the reconciler's final sort (src/index.ts,
`allMatches.sort((a, b) => b.similarity - a.similarity)`) yields a
similarity-descending permutation of its input, is stable (the subsequence
of matches carrying any fixed similarity score is unchanged, so equal
scores keep their original block order), and sends scores 0.5, 0.9
submitted in that order to the order 0.9, 0.5. -/
theorem sortBySimilarity_spec (l : List SearchMatch) (q : ℚ) :
    (sortBySimilarity l).Pairwise (fun a b => b.similarity ≤ a.similarity)
    ∧ (sortBySimilarity l).Perm l
    ∧ (sortBySimilarity l).filter (fun x => decide (x.similarity = q))
        = l.filter (fun x => decide (x.similarity = q))
    ∧ sortBySimilarity [simOnly (1/2), simOnly (9/10)] = [simOnly (9/10), simOnly (1/2)] :=
  ⟨sortBySimilarity_pairwise l, sortBySimilarity_perm l, sortBySimilarity_filter q l,
   by norm_num [sortBySimilarity, insertBySim, simOnly]⟩

theorem insertPairAsc_perm (p : Nat × Str) : ∀ l, List.Perm (insertPairAsc p l) (p :: l) := by
  intro l
  induction l with
  | nil => simp [insertPairAsc]
  | cons x xs ih =>
    by_cases h : p.1 ≤ x.1
    · simp [insertPairAsc, h]
    · simp only [insertPairAsc, if_neg h]
      exact (ih.cons x).trans (List.Perm.swap p x xs)

theorem sortPairsAsc_perm : ∀ l, List.Perm (sortPairsAsc l) l := by
  intro l
  induction l with
  | nil => rfl
  | cons x xs ih => exact (insertPairAsc_perm x _).trans (ih.cons x)

theorem insertPairAsc_pairwise (p : Nat × Str) :
    ∀ l, l.Pairwise (fun a b => a.1 ≤ b.1) →
      (insertPairAsc p l).Pairwise (fun a b => a.1 ≤ b.1) := by
  intro l
  induction l with
  | nil => intro _; simp [insertPairAsc]
  | cons x xs ih =>
    intro h
    rcases List.pairwise_cons.mp h with ⟨hx, hxs⟩
    by_cases hc : p.1 ≤ x.1
    · simp only [insertPairAsc, if_pos hc]
      refine List.pairwise_cons.mpr ⟨?_, h⟩
      intro y hy
      rcases List.mem_cons.mp hy with rfl | hy2
      · exact hc
      · exact hc.trans (hx y hy2)
    · simp only [insertPairAsc, if_neg hc]
      refine List.pairwise_cons.mpr ⟨?_, ih hxs⟩
      intro y hy
      have hy3 : y ∈ p :: xs := (insertPairAsc_perm p xs).mem_iff.mp hy
      rcases List.mem_cons.mp hy3 with rfl | hy4
      · exact le_of_lt (lt_of_not_le hc)
      · exact hx y hy4

theorem sortPairsAsc_pairwise : ∀ l, (sortPairsAsc l).Pairwise (fun a b => a.1 ≤ b.1) := by
  intro l
  induction l with
  | nil => simp [sortPairsAsc]
  | cons x xs ih => exact insertPairAsc_pairwise x _ ih

/-- C2 counterexample: a block whose match line and context line carry the
same line number 11 keeps both entries; the sorted line numbers are
`[11, 11]`, which is not strictly increasing, and the emitted location
joins both contents. -/
theorem rg_context_duplicate_counterexample :
    (sortPairsAsc (rgBlockState (str "/p") (str "/p/f.ts:11:a\n/p/f.ts-11-b")).ctx).map Prod.fst
      = [11, 11]
    ∧ ¬ List.Pairwise (fun a b => a < b) ([11, 11] : List Nat)
    ∧ parseRipgrepOutput (str "/p/f.ts:11:a\n/p/f.ts-11-b") (str "/p")
        = [⟨str "f.ts", 11, str "a\nb"⟩] := by
  refine ⟨by decide, ?_, by decide⟩
  intro h
  exact lt_irrefl 11 ((List.pairwise_cons.mp h).1 11 (by simp))

/-- C2 (amended): within a block the accumulated context entries are sorted
ascending by line number, but they are not de-duplicated: the sort is a
permutation of the accumulator, so two recognized lines with the same line
number both remain and the sorted numbers are only non-decreasing, not
strictly increasing. -/
theorem rg_context_sorted_not_dedup (basePath block : Str) :
    (sortPairsAsc (rgBlockState basePath block).ctx).Pairwise (fun a b => a.1 ≤ b.1)
    ∧ (sortPairsAsc (rgBlockState basePath block).ctx).Perm (rgBlockState basePath block).ctx :=
  ⟨sortPairsAsc_pairwise _, sortPairsAsc_perm _⟩

theorem isPrefixOf_nil_left (l : Str) : ([] : Str).isPrefixOf l = true := by
  cases l <;> rfl

theorem splitOnSubF_congr (s0 : Char) (sr : Str) :
    ∀ f1 f2 s, s.length ≤ f1 → s.length ≤ f2 →
      splitOnSubF s0 sr f1 s = splitOnSubF s0 sr f2 s := by
  intro f1
  induction f1 with
  | zero =>
    intro f2 s h1 h2
    have hs : s = [] := List.length_eq_zero.mp (Nat.le_zero.mp h1)
    subst hs
    cases f2 <;> rfl
  | succ f ih =>
    intro f2 s h1 h2
    cases s with
    | nil => cases f2 <;> rfl
    | cons c rest =>
      cases f2 with
      | zero => simp at h2
      | succ f2' =>
        simp only [List.length_cons] at h1 h2
        have hr : rest.length ≤ f := by omega
        have hr2 : rest.length ≤ f2' := by omega
        simp only [splitOnSubF]
        by_cases hc : c = s0 ∧ sr.isPrefixOf rest
        · have hd : (rest.drop sr.length).length ≤ f := by
            have hdl := List.length_drop sr.length rest
            omega
          have hd2 : (rest.drop sr.length).length ≤ f2' := by
            have hdl := List.length_drop sr.length rest
            omega
          rw [if_pos hc, if_pos hc, ih _ _ hd hd2]
        · rw [if_neg hc, if_neg hc, ih _ _ hr hr2]

theorem splitOnSubF_dd (b : Str) :
    ∀ a f, (a ++ ['-', '-', '\n'] ++ b).length ≤ f →
      hasSub ['-', '-', '\n'] a = false →
      splitOnSubF '-' ['-', '\n'] f (a ++ ['-', '-', '\n'] ++ b)
        = a :: splitOnSubF '-' ['-', '\n'] b.length b := by
  intro a
  induction a with
  | nil =>
    intro f hf h
    simp only [List.nil_append, List.length_cons, List.length_append] at hf
    cases f with
    | zero => omega
    | succ f' =>
      show splitOnSubF '-' ['-', '\n'] (f' + 1) ('-' :: '-' :: '\n' :: b) = [] :: _
      have hpre : (['-', '\n'] : Str).isPrefixOf ('-' :: '\n' :: b) = true := by
        simp [List.isPrefixOf, isPrefixOf_nil_left]
      simp only [splitOnSubF]
      rw [if_pos ⟨trivial, hpre⟩]
      have hdrop : (('-' :: '\n' :: b).drop (['-', '\n'] : Str).length) = b := rfl
      rw [hdrop]
      rw [splitOnSubF_congr '-' ['-', '\n'] f' b.length b (by omega) (le_refl _)]
  | cons c a' ih =>
    intro f hf h
    have hsplit : ((['-', '-', '\n'] : Str).isPrefixOf (c :: a') = false)
        ∧ hasSub ['-', '-', '\n'] a' = false := by
      have hh := h
      simp only [hasSub, Bool.or_eq_false_iff] at hh
      exact hh
    cases f with
    | zero => simp at hf
    | succ f' =>
      simp only [List.cons_append, List.length_cons] at hf ⊢
      simp only [splitOnSubF]
      have hcond : ¬ (c = '-' ∧ (['-', '\n'] : Str).isPrefixOf (a' ++ ['-', '-', '\n'] ++ b) = true) := by
        rintro ⟨rfl, hp⟩
        cases a' with
        | nil => simp [List.isPrefixOf] at hp
        | cons x a'' =>
          cases a'' with
          | nil => simp [List.isPrefixOf] at hp
          | cons y a''' =>
            simp only [List.cons_append, List.isPrefixOf, Bool.and_eq_true, beq_iff_eq] at hp
            rcases hp with ⟨hx, hy, _⟩
            have : (['-', '-', '\n'] : Str).isPrefixOf ('-' :: x :: y :: a''') = true := by
              subst hx; subst hy
              simp [List.isPrefixOf, isPrefixOf_nil_left]
            rw [this] at hsplit
            exact Bool.true_eq_false.mp hsplit.1
      rw [if_neg hcond]
      rw [ih f' (by omega) hsplit.2]

/-- C4 counterexample: the line `1: a--` does terminate a block, because
the parser splits on the two-character sequence `--` followed by a newline
wherever it occurs, not only when `--` stands alone on its own line; the
input therefore parses as two blocks and two records, where the claim
predicts a single block. -/
theorem w2v_split_midline_counterexample :
    w2vBlocks (str "Similarity: 0.5\n1: a--\nSimilarity: 0.7\n2: b")
      = [str "Similarity: 0.5\n1: a", str "Similarity: 0.7\n2: b"]
    ∧ (parseW2vgrepOutput (str "Similarity: 0.5\n1: a--\nSimilarity: 0.7\n2: b")).length = 2 := by
  exact ⟨by decide, by decide⟩

/-- C4 (amended): the similarity parser splits its input at every
occurrence of `--` immediately followed by a newline, even when those
characters terminate a non-empty line: whenever the text before a `--`
plus newline contains no such delimiter itself, the split cuts exactly
there.  Empty segments are discarded by the subsequent filter, which is
part of the parser's definition. -/
theorem splitOnSub_delimiter_spec (a b : Str)
    (h : hasSub ['-', '-', '\n'] a = false) :
    splitOnSub '-' ['-', '\n'] (a ++ ['-', '-', '\n'] ++ b)
      = a :: splitOnSub '-' ['-', '\n'] b :=
  splitOnSubF_dd b a (a ++ ['-', '-', '\n'] ++ b).length (le_refl _) h

/-- C4 witness: the delimiter lemma evaluated at two concrete segments. -/
theorem splitOnSub_delimiter_spec_witness :
    splitOnSub '-' ['-', '\n'] (str "1: x" ++ ['-', '-', '\n'] ++ str "2: y")
      = str "1: x" :: splitOnSub '-' ['-', '\n'] (str "2: y") :=
  splitOnSub_delimiter_spec (str "1: x") (str "2: y") (by decide)

theorem lastHit_isSome (a : α) (l : List α) : (lastHit (a :: l)).isSome = true := by
  induction l generalizing a with
  | nil => rfl
  | cons b t ih => exact ih b

theorem lastHit_mem : ∀ (l : List α) x, lastHit l = some x → x ∈ l := by
  intro l
  induction l with
  | nil => intro x h; simp [lastHit] at h
  | cons a t ih =>
    intro x h
    cases t with
    | nil =>
      simp [lastHit] at h
      simp [h]
    | cons b t' =>
      have hstep : lastHit (a :: b :: t') = lastHit (b :: t') := rfl
      rw [hstep] at h
      exact List.mem_cons_of_mem _ (ih x h)

theorem rgScanFrom_sep_mem (sep : Char) :
    ∀ (l acc : Str) x, rgScanFrom sep acc l = some x → sep ∈ l := by
  intro l
  induction l with
  | nil => intro acc x h; simp [rgScanFrom] at h
  | cons c rest ih =>
    intro acc x h
    by_cases hc : c = sep
    · rw [hc]; exact List.mem_cons_self _ _
    · have hcond : ¬ (c = sep ∧ acc ≠ []) := fun hp => hc hp.1
      rw [rgScanFrom, if_neg hcond] at h
      exact List.mem_cons_of_mem _ (ih (c :: acc) x h)

theorem mem_takeWhile_true (p : Char → Bool) :
    ∀ (s : Str) c, c ∈ s.takeWhile p → p c = true := by
  intro s
  induction s with
  | nil => intro c hc; simp [List.takeWhile] at hc
  | cons a rest ih =>
    intro c hc
    cases hpa : p a with
    | false => simp [List.takeWhile, hpa] at hc
    | true =>
      simp only [List.takeWhile, hpa] at hc
      rcases List.mem_cons.mp hc with rfl | hc2
      · exact hpa
      · exact ih c hc2

theorem head_dropWhile_false (p : Char → Bool) :
    ∀ (l : Str) x, (l.dropWhile p).head? = some x → p x = false := by
  intro l
  induction l with
  | nil => intro x h; simp [List.dropWhile] at h
  | cons a rest ih =>
    intro x h
    cases hpa : p a with
    | true =>
      simp only [List.dropWhile, hpa] at h
      exact ih x h
    | false =>
      simp only [List.dropWhile, hpa, List.head?_cons, Option.some.injEq] at h
      rw [← h]
      exact hpa

theorem listSplitOn_ne_nil (sep : Char) : ∀ s, listSplitOn sep s ≠ [] := by
  intro s
  cases s with
  | nil => simp [listSplitOn]
  | cons c rest =>
    by_cases h : c = sep
    · simp [listSplitOn, h]
    · simp only [listSplitOn, if_neg h]
      cases listSplitOn sep rest <;> simp

theorem mem_of_mem_listSplitOn (sep : Char) :
    ∀ (s : Str) (l : Str), l ∈ listSplitOn sep s → ∀ c ∈ l, c ∈ s := by
  intro s
  induction s with
  | nil =>
    intro l hl c hc
    simp [listSplitOn] at hl
    subst hl
    simp at hc
  | cons a rest ih =>
    intro l hl c hc
    by_cases ha : a = sep
    · simp only [listSplitOn, if_pos ha] at hl
      rcases List.mem_cons.mp hl with rfl | hl2
      · simp at hc
      · exact List.mem_cons_of_mem _ (ih l hl2 c hc)
    · simp only [listSplitOn, if_neg ha] at hl
      cases hsp : listSplitOn sep rest with
      | nil => exact absurd hsp (listSplitOn_ne_nil sep rest)
      | cons h0 t =>
        rw [hsp] at hl
        rcases List.mem_cons.mp hl with rfl | hl2
        · rcases List.mem_cons.mp hc with rfl | hc2
          · exact List.mem_cons_self _ _
          · exact List.mem_cons_of_mem _
              (ih h0 (by rw [hsp]; exact List.mem_cons_self _ _) c hc2)
        · exact List.mem_cons_of_mem _
            (ih l (by rw [hsp]; exact List.mem_cons_of_mem _ hl2) c hc)

theorem trimJS_eq_nil_ws (s : Str) (h : trimJS s = []) : ∀ c ∈ s, isWSChar c = true := by
  intro c hc
  unfold trimJS at h
  rw [List.reverse_eq_nil_iff] at h
  have h2 : ∀ a ∈ (s.dropWhile isWSChar).reverse, isWSChar a := by
    rw [← List.dropWhile_eq_nil_iff]
    exact h
  have h3 : ∀ a ∈ s.dropWhile isWSChar, isWSChar a = true := by
    intro a ha
    exact h2 a (List.mem_reverse.mpr ha)
  have h4 := List.takeWhile_append_dropWhile (p := isWSChar) (l := s)
  rw [← h4] at hc
  rcases List.mem_append.mp hc with hc1 | hc2
  · exact mem_takeWhile_true isWSChar s c hc1
  · exact h3 c hc2

theorem rgSplitLine_nil (sep : Char) : rgSplitLine sep [] = none := rfl

theorem rgFold_file_line (bp : Str) :
    ∀ (lines : List Str) (st : RgState),
      (lines.foldl (rgStep bp) st).file
        = ((lastHit (lines.filterMap (rgSplitLine ':'))).map
            (fun x => relativePath x.1 bp)).getD st.file
      ∧ (lines.foldl (rgStep bp) st).line
        = ((lastHit (lines.filterMap (rgSplitLine ':'))).map
            (fun x => x.2.1)).getD st.line := by
  intro lines
  induction lines with
  | nil => intro st; exact ⟨rfl, rfl⟩
  | cons l ls ih =>
    intro st
    rw [List.foldl_cons, List.filterMap_cons]
    cases hcol : rgSplitLine ':' l with
    | none =>
      have hfl : (rgStep bp st l).file = st.file ∧ (rgStep bp st l).line = st.line := by
        by_cases hl : l = []
        · simp [rgStep, hl]
        · cases hdash : rgSplitLine '-' l with
          | none => simp [rgStep, hl, hcol, hdash]
          | some y => simp [rgStep, hl, hcol, hdash]
      rcases ih (rgStep bp st l) with ⟨ihf, ihl⟩
      rw [ihf, ihl, hfl.1, hfl.2]
      exact ⟨rfl, rfl⟩
    | some x =>
      obtain ⟨f, n, t⟩ := x
      have hl : l ≠ [] := by
        intro h0
        rw [h0, rgSplitLine_nil] at hcol
        exact absurd hcol (by simp)
      have hst : rgStep bp st l = ⟨relativePath f bp, n, st.ctx ++ [(n, t)]⟩ := by
        simp [rgStep, hl, hcol]
      rcases ih (rgStep bp st l) with ⟨ihf, ihl⟩
      rw [ihf, ihl, hst]
      cases hfm : ls.filterMap (rgSplitLine ':') with
      | nil => exact ⟨rfl, rfl⟩
      | cons y ys =>
        have hstep : lastHit ((f, n, t) :: y :: ys) = lastHit (y :: ys) := rfl
        rw [hstep]
        have hsome := lastHit_isSome y ys
        cases hly : lastHit (y :: ys) with
        | none => rw [hly] at hsome; simp at hsome
        | some z => exact ⟨rfl, rfl⟩

theorem rgFold_ctx (bp : Str) :
    ∀ (lines : List Str) (st : RgState),
      (lines.foldl (rgStep bp) st).ctx = st.ctx ++ lines.filterMap rgRecognize := by
  intro lines
  induction lines with
  | nil => intro st; simp
  | cons l ls ih =>
    intro st
    rw [List.foldl_cons, List.filterMap_cons]
    by_cases hl : l = []
    · have hrec : rgRecognize l = none := by
        rw [hl]
        rfl
      have hst : rgStep bp st l = st := by simp [rgStep, hl]
      rw [hst, hrec, ih st]
    · cases hcol : rgSplitLine ':' l with
      | some x =>
        obtain ⟨f, n, t⟩ := x
        have hst : rgStep bp st l = ⟨relativePath f bp, n, st.ctx ++ [(n, t)]⟩ := by
          simp [rgStep, hl, hcol]
        have hrec : rgRecognize l = some (n, t) := by simp [rgRecognize, hcol]
        rw [hst, hrec, ih]
        simp
      | none =>
        cases hdash : rgSplitLine '-' l with
        | some y =>
          obtain ⟨f, n, t⟩ := y
          have hst : rgStep bp st l = ⟨st.file, st.line, st.ctx ++ [(n, t)]⟩ := by
            simp [rgStep, hl, hcol, hdash]
          have hrec : rgRecognize l = some (n, t) := by simp [rgRecognize, hcol, hdash]
          rw [hst, hrec, ih]
          simp
        | none =>
          have hst : rgStep bp st l = st := by simp [rgStep, hl, hcol, hdash]
          have hrec : rgRecognize l = none := by simp [rgRecognize, hcol, hdash]
          rw [hst, hrec, ih st]

theorem rgBlockState_file (bp block : Str) :
    (rgBlockState bp block).file
      = ((lastColonHit (listSplitOn '\n' block)).map
          (fun x => relativePath x.1 bp)).getD [] :=
  (rgFold_file_line bp (listSplitOn '\n' block) ⟨[], 0, []⟩).1

theorem rgBlockState_line (bp block : Str) :
    (rgBlockState bp block).line
      = ((lastColonHit (listSplitOn '\n' block)).map (fun x => x.2.1)).getD 0 :=
  (rgFold_file_line bp (listSplitOn '\n' block) ⟨[], 0, []⟩).2

theorem rgBlockState_ctx (bp block : Str) :
    (rgBlockState bp block).ctx = (listSplitOn '\n' block).filterMap rgRecognize :=
  rgFold_ctx bp (listSplitOn '\n' block) ⟨[], 0, []⟩

theorem parseW2vBlock_none_of_no_header (b : Str) (h : headerCapture b = none) :
    parseW2vBlock b = none := by
  unfold headerCapture at h
  cases hbl : blockLines b with
  | nil => simp [parseW2vBlock, hbl]
  | cons l0 rest =>
    rw [hbl] at h
    have h' : findHeaderCapture l0 = none := h
    simp [parseW2vBlock, hbl, h']

theorem parseRgBlock_none_of_no_colon (bp b : Str)
    (h : ∀ l ∈ listSplitOn '\n' b, rgSplitLine ':' l = none) :
    parseRgBlock bp b = none := by
  by_cases ht : trimJS b = []
  · simp [parseRgBlock, ht]
  · have hfm : (listSplitOn '\n' b).filterMap (rgSplitLine ':') = [] :=
      List.filterMap_eq_nil.mpr h
    have hfile : (rgBlockState bp b).file = [] := by
      rw [rgBlockState_file]
      unfold lastColonHit
      rw [hfm]
      rfl
    simp [parseRgBlock, ht, hfile]

/-- C8: when no block of the similarity output has a line-0 similarity
header, and no block of the location output contains a colon-notation match
line, both parsers return the empty sequence (the models are total
functions, so no error is ever raised; empty and whitespace-only inputs
satisfy both premises, as the witness shows on a whitespace-only input). -/
theorem parsers_empty_on_unrecognized (output basePath : Str)
    (h1 : ∀ b ∈ w2vBlocks output, headerCapture b = none)
    (h2 : ∀ b ∈ rgBlocks output, ∀ l ∈ listSplitOn '\n' b, rgSplitLine ':' l = none) :
    parseW2vgrepOutput output = [] ∧ parseRipgrepOutput output basePath = [] := by
  constructor
  · show (w2vBlocks output).filterMap parseW2vBlock = []
    exact List.filterMap_eq_nil.mpr
      (fun b hb => parseW2vBlock_none_of_no_header b (h1 b hb))
  · show (rgBlocks output).filterMap (parseRgBlock basePath) = []
    exact List.filterMap_eq_nil.mpr
      (fun b hb => parseRgBlock_none_of_no_colon basePath b (h2 b hb))

/-- C8 witness: both parsers on a whitespace-only input. -/
theorem parsers_empty_on_unrecognized_witness :
    parseW2vgrepOutput (str "   \n\n  ") = []
    ∧ parseRipgrepOutput (str "   \n\n  ") (str "/p") = [] :=
  parsers_empty_on_unrecognized (str "   \n\n  ") (str "/p") (by decide) (by decide)

/-- C10: when every colon-notation match line of a block names a file path
literally equal to the base path, relativization produces the empty string,
the emitted-location guard fails, and the block is silently dropped — even
though the block does contain a recognized match line. -/
theorem rg_base_path_match_dropped (basePath block : Str)
    (h1 : ∀ l ∈ listSplitOn '\n' block,
        (rgSplitLine ':' l).all (fun x => decide (x.1 = basePath)) = true)
    (h2 : (listSplitOn '\n' block).any (fun l => (rgSplitLine ':' l).isSome) = true) :
    parseRgBlock basePath block = none := by
  have hfile : (rgBlockState basePath block).file = [] := by
    rw [rgBlockState_file]
    unfold lastColonHit
    cases hlh : lastHit ((listSplitOn '\n' block).filterMap (rgSplitLine ':')) with
    | none => rfl
    | some x =>
      have hx : x ∈ (listSplitOn '\n' block).filterMap (rgSplitLine ':') :=
        lastHit_mem _ x hlh
      rcases List.mem_filterMap.mp hx with ⟨l, hl, hcol⟩
      have hxb := h1 l hl
      rw [hcol] at hxb
      simp [Option.all] at hxb
      simp [hxb, relativePath_self]
  by_cases ht : trimJS block = []
  · simp [parseRgBlock, ht]
  · simp [parseRgBlock, ht, hfile]

/-- C10 witness: a block whose single match line names the base path. -/
theorem rg_base_path_match_dropped_witness :
    parseRgBlock (str "/p") (str "/p:3:x") = none :=
  rg_base_path_match_dropped (str "/p") (str "/p:3:x") (by decide) (by decide)

/-- C5 counterexample: the block `/p/f.ts:5:good` + `/p:3:bad` contains a
recognized colon-notation match line whose (relativized) file `f.ts` is
non-empty and whose line number 5 is positive, yet no `MatchLocation` is
emitted: the later match line names the base path itself, overwrites the
designated file with the empty relativized path, and the final guard
fails. -/
theorem rg_emission_counterexample :
    parseRipgrepOutput (str "/p/f.ts:5:good\n/p:3:bad") (str "/p") = []
    ∧ rgBlocks (str "/p/f.ts:5:good\n/p:3:bad") = [str "/p/f.ts:5:good\n/p:3:bad"]
    ∧ rgSplitLine ':' (str "/p/f.ts:5:good") = some (str "/p/f.ts", 5, str "good")
    ∧ relativePath (str "/p/f.ts") (str "/p") = str "f.ts"
    ∧ (str "f.ts" ≠ ([] : Str)) := by
  exact ⟨by decide, by decide, by decide, by decide, by decide⟩

/-- C5 (amended): a dual-notation block emits a `MatchLocation` if and only
if its LAST colon-notation match line has non-empty relativized file path
and positive line number — each match line overwrites the designated
file/line, so earlier match lines do not by themselves force emission.  The
emitted context is the content of all recognized lines (match and context
alike) sorted ascending by line number and joined with newlines, prefixes
stripped; the documented three-line example block yields exactly one
location `file.ts` line 11 with the three contents in ascending order. -/
theorem rg_block_emission_spec (basePath block : Str) :
    ((parseRgBlock basePath block).isSome = true ↔
      (∃ f n t, lastColonHit (listSplitOn '\n' block) = some (f, n, t)
        ∧ relativePath f basePath ≠ [] ∧ 0 < n))
    ∧ (∀ loc, parseRgBlock basePath block = some loc →
        loc.context
          = joinNL ((sortPairsAsc ((listSplitOn '\n' block).filterMap rgRecognize)).map Prod.snd))
    ∧ parseRipgrepOutput
        (str "/path/file.ts-10-line before\n/path/file.ts:11:matched line\n/path/file.ts-12-line after")
        (str "/path")
      = [⟨str "file.ts", 11, str "line before\nmatched line\nline after"⟩] := by
  refine ⟨⟨?_, ?_⟩, ?_, by decide⟩
  · intro h
    by_cases ht : trimJS block = []
    · simp [parseRgBlock, ht] at h
    · simp only [parseRgBlock, if_neg ht] at h
      by_cases hg : (rgBlockState basePath block).file ≠ [] ∧ 0 < (rgBlockState basePath block).line
      · rcases hg with ⟨hf, hn⟩
        rw [rgBlockState_file] at hf
        rw [rgBlockState_line] at hn
        cases hlh : lastColonHit (listSplitOn '\n' block) with
        | none => rw [hlh] at hf; simp at hf
        | some x =>
          obtain ⟨f, n, t⟩ := x
          rw [hlh] at hf hn
          simp at hf hn
          exact ⟨f, n, t, rfl, hf, hn⟩
      · rw [if_neg hg] at h
        simp at h
  · rintro ⟨f, n, t, hlh, hrel, hn⟩
    have hx : (f, n, t) ∈ (listSplitOn '\n' block).filterMap (rgSplitLine ':') :=
      lastHit_mem _ _ hlh
    rcases List.mem_filterMap.mp hx with ⟨l, hl, hcol⟩
    have hcmem : ':' ∈ block :=
      mem_of_mem_listSplitOn '\n' block l hl ':' (rgScanFrom_sep_mem ':' l [] _ hcol)
    have ht : trimJS block ≠ [] := by
      intro h0
      have hws := trimJS_eq_nil_ws block h0 ':' hcmem
      exact absurd hws (by decide)
    have hf : (rgBlockState basePath block).file = relativePath f basePath := by
      rw [rgBlockState_file, hlh]
      rfl
    have hn' : (rgBlockState basePath block).line = n := by
      rw [rgBlockState_line, hlh]
      rfl
    simp only [parseRgBlock, if_neg ht]
    rw [if_pos ⟨by rw [hf]; exact hrel, by rw [hn']; exact hn⟩]
    rfl
  · intro loc hloc
    by_cases ht : trimJS block = []
    · simp [parseRgBlock, ht] at hloc
    · simp only [parseRgBlock, if_neg ht] at hloc
      by_cases hg : (rgBlockState basePath block).file ≠ [] ∧ 0 < (rgBlockState basePath block).line
      · rw [if_pos hg] at hloc
        have hl2 := Option.some.inj hloc
        rw [← hl2]
        show joinNL ((sortPairsAsc (rgBlockState basePath block).ctx).map Prod.snd) = _
        rw [rgBlockState_ctx]
      · rw [if_neg hg] at hloc
        exact absurd hloc (by simp)

/-- C5 witness: the amended emission condition applied to the documented
three-line example block. -/
theorem rg_block_emission_spec_witness :
    (parseRgBlock (str "/path")
        (str "/path/file.ts-10-line before\n/path/file.ts:11:matched line\n/path/file.ts-12-line after")).isSome
      = true :=
  (rg_block_emission_spec (str "/path")
      (str "/path/file.ts-10-line before\n/path/file.ts:11:matched line\n/path/file.ts-12-line after")).1.mpr
    ⟨str "/path/file.ts", 11, str "matched line", by decide, by decide, by decide⟩

theorem digitsVal_append_digit (s : Str) (c : Char) :
    digitsVal (s ++ [c]) = 10 * digitsVal s + digitVal c := by
  unfold digitsVal
  rw [List.foldl_append]
  rfl

theorem digitChar10_spec (r : Nat) (h : r < 10) :
    digitVal (digitChar10 r) = r ∧ isDigitChar (digitChar10 r) = true := by
  interval_cases r <;> exact ⟨by decide, by decide⟩

theorem natDigitsF_zero (f : Nat) : natDigitsF f 0 = [] := by
  cases f <;> rfl

theorem natDigitsF_spec :
    ∀ (fuel n : Nat), 0 < n → n ≤ fuel →
      digitsVal (natDigitsF fuel n) = n
      ∧ (∀ c ∈ natDigitsF fuel n, isDigitChar c = true)
      ∧ natDigitsF fuel n ≠ [] := by
  intro fuel
  induction fuel with
  | zero => intro n h1 h2; omega
  | succ f ih =>
    intro n h1 h2
    cases n with
    | zero => omega
    | succ m =>
      have heq : natDigitsF (f + 1) (m + 1)
          = natDigitsF f ((m + 1) / 10) ++ [digitChar10 ((m + 1) % 10)] := rfl
      have hr : (m + 1) % 10 < 10 := Nat.mod_lt _ (by omega)
      rcases digitChar10_spec _ hr with ⟨hv, hd⟩
      by_cases hq : (m + 1) / 10 = 0
      · have hlt : m + 1 < 10 := (Nat.div_eq_zero_iff (by omega)).mp hq
        have hmod : (m + 1) % 10 = m + 1 := Nat.mod_eq_of_lt hlt
        rw [heq, hq, natDigitsF_zero]
        refine ⟨?_, ?_, by simp⟩
        · show digitsVal ([] ++ [digitChar10 ((m + 1) % 10)]) = m + 1
          rw [digitsVal_append_digit, hv, hmod]
          have hz : digitsVal ([] : Str) = 0 := rfl
          rw [hz]
          omega
        · intro c hc
          simp at hc
          rw [hc]
          exact hd
      · have hqpos : 0 < (m + 1) / 10 := Nat.pos_of_ne_zero hq
        have hqle : (m + 1) / 10 ≤ f := by
          have hdl : (m + 1) / 10 < m + 1 := Nat.div_lt_self (by omega) (by omega)
          omega
        rcases ih _ hqpos hqle with ⟨ihv, ihd, _⟩
        rw [heq]
        refine ⟨?_, ?_, by simp⟩
        · rw [digitsVal_append_digit, ihv, hv]
          omega
        · intro c hc
          rcases List.mem_append.mp hc with hc1 | hc2
          · exact ihd c hc1
          · simp at hc2
            rw [hc2]
            exact hd

theorem natToStr_spec (n : Nat) :
    digitsVal (natToStr n) = n
    ∧ (∀ c ∈ natToStr n, isDigitChar c = true)
    ∧ natToStr n ≠ [] := by
  by_cases h : n = 0
  · subst h
    exact ⟨by decide, by decide, by decide⟩
  · unfold natToStr
    rw [if_neg h]
    exact natDigitsF_spec n n (Nat.pos_of_ne_zero h) (le_refl n)

theorem takeWhile_digits_append (ds : Str) (x : Char) (r : Str)
    (h1 : ∀ a ∈ ds, isDigitChar a = true) (h2 : isDigitChar x = false) :
    (ds ++ x :: r).takeWhile isDigitChar = ds
    ∧ (ds ++ x :: r).dropWhile isDigitChar = x :: r := by
  induction ds with
  | nil => constructor <;> simp [List.takeWhile, List.dropWhile, h2]
  | cons d ds' ih =>
    have hd : isDigitChar d = true := h1 d (List.mem_cons_self _ _)
    have ih' := ih (fun a ha => h1 a (List.mem_cons_of_mem _ ha))
    constructor
    · simp [List.takeWhile, hd, ih'.1]
    · simp [List.dropWhile, hd, ih'.2]

theorem dropWhile_eq_self_of_head (p : Char → Bool) (c : Str)
    (hc : ∀ x, c.head? = some x → p x = false) : c.dropWhile p = c := by
  cases c with
  | nil => rfl
  | cons a t =>
    have ha := hc a rfl
    simp [List.dropWhile, ha]

theorem ctxLineMatch_entry (n : Nat) (c : Str)
    (hc : ∀ x, c.head? = some x → isWSChar x = false) :
    ctxLineMatch (contextEntry n c) = some (n, c) := by
  rcases natToStr_spec n with ⟨hval, hdig, hne⟩
  obtain ⟨d, ds, hds⟩ : ∃ d ds, natToStr n = d :: ds := by
    cases hns : natToStr n with
    | nil => exact absurd hns hne
    | cons d t => exact ⟨d, t, rfl⟩
  have hcolon : isDigitChar ':' = false := by decide
  rcases takeWhile_digits_append (natToStr n) ':' (' ' :: c) hdig hcolon with ⟨htw, hdw⟩
  have hl : contextEntry n c = natToStr n ++ ':' :: ' ' :: c := rfl
  unfold ctxLineMatch
  rw [hl, htw, hdw, hds]
  show some (digitsVal (d :: ds), (' ' :: c).dropWhile isWSChar) = some (n, c)
  rw [← hds, hval]
  have hsp : isWSChar ' ' = true := by decide
  have hdc : (' ' :: c).dropWhile isWSChar = c := by
    simp only [List.dropWhile, hsp]
    exact dropWhile_eq_self_of_head isWSChar c hc
  rw [hdc]

theorem ctxLineMatch_snd_head (l : Str) (pr : Nat × Str) (h : ctxLineMatch l = some pr) :
    ∀ x, pr.2.head? = some x → isWSChar x = false := by
  unfold ctxLineMatch at h
  split at h
  · exact absurd h (by simp)
  · have h2 := Option.some.inj h
    intro x hx
    rw [← h2] at hx
    exact head_dropWhile_false isWSChar _ x hx
  · exact absurd h (by simp)

theorem enum_cons_drop (l0 : Str) (rest : List Str) :
    (l0 :: rest).enum.drop 1 = rest.enumFrom 1 := rfl

theorem snd_mem_enumFrom : ∀ (l : List Str) (n : Nat) (p : Nat × Str), p ∈ l.enumFrom n → p.2 ∈ l := by
  intro l
  induction l with
  | nil => intro n p h; simp [List.enumFrom] at h
  | cons a t ih =>
    intro n p h
    simp only [List.enumFrom] at h
    rcases List.mem_cons.mp h with rfl | h2
    · exact List.mem_cons_self _ _
    · exact List.mem_cons_of_mem _ (ih (n + 1) p h2)

/-- C9: a block with a valid similarity header whose remaining lines all
fail the numbered-context pattern is still emitted, as a degenerate record
with line 0, empty match text and empty context — the parser does not
raise. -/
theorem w2v_degenerate_block (block cap : Str)
    (h1 : headerCapture block = some cap)
    (h2 : ∀ l ∈ (blockLines block).drop 1, ctxLineMatch l = none) :
    parseW2vBlock block
      = some { similarity := parseFloatQ cap, line := 0, matchText := []
             , context := [], locations := none } := by
  unfold headerCapture at h1
  cases hbl : blockLines block with
  | nil => rw [hbl] at h1; exact absurd h1 (by simp)
  | cons l0 rest =>
    rw [hbl] at h1 h2
    have h1' : findHeaderCapture l0 = some cap := h1
    have h2' : ∀ l ∈ rest, ctxLineMatch l = none := by
      intro l hl
      exact h2 l (by simpa using hl)
    have hip : w2vIdxPairs (l0 :: rest) = [] := by
      unfold w2vIdxPairs
      apply List.filterMap_eq_nil.mpr
      intro p hp
      rw [enum_cons_drop] at hp
      have hmem : p.2 ∈ rest := snd_mem_enumFrom rest 1 p hp
      rw [h2' p.2 hmem]
      rfl
    have hctx : w2vContext (l0 :: rest) = [] := by
      unfold w2vContext
      rw [hip]
      rfl
    have hch : w2vChosen (l0 :: rest) = (0, []) := by
      simp [w2vChosen, w2vFirstPass, hctx, hip, lastHit]
    simp [parseW2vBlock, hbl, h1', hch, hctx]

/-- C9 witness: a header-only block with one unrecognized line. -/
theorem w2v_degenerate_block_witness :
    parseW2vBlock (str "Similarity: 0.5\nfoo")
      = some { similarity := parseFloatQ (str "0.5"), line := 0, matchText := []
             , context := [], locations := none } :=
  w2v_degenerate_block (str "Similarity: 0.5\nfoo") (str "0.5") (by decide) (by decide)

/-- C1 counterexample: the even-count block with context lines 10, 11, 12,
13 emits line 12 (the later of the two central entries), not 11 as the
claim states. -/
theorem w2v_even_midpoint_counterexample :
    (parseW2vgrepOutput (str "Similarity: 0.9\n10: a\n11: b\n12: c\n13: d")).map SearchMatch.line
      = [12]
    ∧ (parseW2vgrepOutput (str "Similarity: 0.9\n10: a\n11: b\n12: c\n13: d")).map SearchMatch.line
      ≠ [11] := by
  exact ⟨by decide, by decide⟩

/-- C1 (amended): for every emitted record with a non-empty context of even
length, the match line and match text are obtained by re-parsing the
context entry at 0-based index `count / 2` — for even counts the LATER of
the two central entries (the statement holds for odd counts as well; the
evenness hypothesis mirrors the claim).  In particular the block with
context lines 10, 11, 12, 13 emits line 12. -/
theorem w2v_midpoint_is_floor_half (block : Str) (m : SearchMatch)
    (hp : parseW2vBlock block = some m)
    (hlen : 0 < m.context.length)
    (heven : m.context.length % 2 = 0) :
    ∃ e, m.context.get? (m.context.length / 2) = some e
      ∧ ctxLineMatch e = some (m.line, m.matchText) := by
  clear heven
  cases hbl : blockLines block with
  | nil => simp [parseW2vBlock, hbl] at hp
  | cons l0 rest =>
    cases hcap : findHeaderCapture l0 with
    | none => simp [parseW2vBlock, hbl, hcap] at hp
    | some cap =>
      simp only [parseW2vBlock, hbl, hcap] at hp
      have hm := Option.some.inj hp
      have hmctx : m.context = w2vContext (l0 :: rest) := by rw [← hm]
      have hml : m.line = (w2vChosen (l0 :: rest)).1 := by rw [← hm]
      have hmt : m.matchText = (w2vChosen (l0 :: rest)).2 := by rw [← hm]
      rw [hmctx] at hlen ⊢
      rw [hml, hmt]
      have hmid : (w2vContext (l0 :: rest)).length / 2 < (w2vContext (l0 :: rest)).length :=
        Nat.div_lt_self hlen (by omega)
      obtain ⟨e, he⟩ : ∃ e, (w2vContext (l0 :: rest)).get?
          ((w2vContext (l0 :: rest)).length / 2) = some e := by
        cases hg : (w2vContext (l0 :: rest)).get? ((w2vContext (l0 :: rest)).length / 2) with
        | none =>
          rw [List.get?_eq_none] at hg
          omega
        | some e => exact ⟨e, rfl⟩
      refine ⟨e, he, ?_⟩
      have hmap : (w2vContext (l0 :: rest)).get? ((w2vContext (l0 :: rest)).length / 2)
          = ((w2vIdxPairs (l0 :: rest)).get? ((w2vContext (l0 :: rest)).length / 2)).map
              (fun p => contextEntry p.2.1 p.2.2) := by
        show (List.map _ (w2vIdxPairs (l0 :: rest))).get? _ = _
        rw [List.get?_map]
      rw [hmap] at he
      rcases Option.map_eq_some'.mp he with ⟨p, hpget, hpe⟩
      obtain ⟨pi, pn, pc⟩ := p
      have hpmem : (pi, pn, pc) ∈ w2vIdxPairs (l0 :: rest) := List.get?_mem hpget
      have hhead : ∀ x, pc.head? = some x → isWSChar x = false := by
        rcases List.mem_filterMap.mp hpmem with ⟨q, _, hqp⟩
        rcases Option.map_eq_some'.mp hqp with ⟨pr, hpr, hpq⟩
        have hpr2 : pr = (pn, pc) := by
          have := congrArg Prod.snd hpq
          simpa using this
        rw [hpr2] at hpr
        exact ctxLineMatch_snd_head q.2 (pn, pc) hpr
      have hrt : ctxLineMatch e = some (pn, pc) := by
        rw [← hpe]
        exact ctxLineMatch_entry pn pc hhead
      have hne0 : (w2vContext (l0 :: rest)).length ≠ 0 := by omega
      have hchosen : w2vChosen (l0 :: rest) = (pn, pc) := by
        have he2 := he
        rw [← hmap] at he2
        simp only [w2vChosen]
        rw [if_pos hne0]
        simp only [he2, hrt]
      rw [hchosen]
      exact hrt

/-- C1 witness: the amended midpoint rule applied to the 10-13 block. -/
theorem w2v_midpoint_is_floor_half_witness :
    ∃ e, [str "10: a", str "11: b", str "12: c", str "13: d"].get? 2 = some e
      ∧ ctxLineMatch e = some (12, str "c") := by
  have h := w2v_midpoint_is_floor_half (str "Similarity: 0.9\n10: a\n11: b\n12: c\n13: d")
      { similarity := parseFloatQ (str "0.9"), line := 12, matchText := str "c",
        context := [str "10: a", str "11: b", str "12: c", str "13: d"], locations := none }
      (by rfl) (by decide) (by decide)
  exact h
